import Mathlib

/-!
Shallow embedding of the FoldScape in-memory query engine
(`site/assets/js/tools.js`-style table page script and `main.js` dashboard
script): record normalization, filtering, sorting, aggregation.

JS modelling conventions:
* a JS string is a Lean `String`;
* an optional field (`repo.metadata?.name` and the like) is an `Option`;
* the JS defaulting idiom `x || d` on a string-valued field is `strOr`
  (absent or empty string falls back to `d`); on a number it is `Option.getD`;
* `Array.prototype.sort(cmp)` (stable per ES2019) is Mathlib's stable
  `List.insertionSort` with the relation `cmp a b ≤ 0`;
* `Array.prototype.filter` is `List.filter`, `slice(0, n)` is `List.take n`.
-/

/-- JS `s.toLowerCase()` modelled per character (same mapping as
`String.toLower`, written structurally so the kernel can evaluate it). -/
def String.jsLower (s : String) : String := ⟨s.data.map Char.toLower⟩

namespace Foldscape

/-- A repository record: `repo_id` plus the optional `metadata`,
`classification`, `tracking` and `domain_specific` fields the scripts read,
flattened (an absent group makes all its fields absent). -/
structure Repo where
  repo_id : String
  name : Option String := none
  url : Option String := none
  description : Option String := none
  stars : Option Nat := none
  language : Option String := none
  license : Option String := none
  created_at : Option String := none
  last_updated : Option String := none
  category : Option String := none
  trending : Option Bool := none
  star_velocity_7d : Option Int := none
  experimental_validation : Option Bool := none
deriving DecidableEq

/-- JS `x || d` for a string-valued optional field: absent or empty (falsy)
falls back to `d`. -/
def strOr (v : Option String) (d : String) : String :=
  match v with
  | some s => if s = "" then d else s
  | none => d

/-- JS truthiness of an optional boolean field (`undefined` is falsy). -/
def boolOr (v : Option Bool) : Bool := v.getD false

/-- `hasPref n h` : `n` is a prefix of `h` (list of chars). -/
def hasPref : List Char → List Char → Bool
  | [], _ => true
  | _ :: _, [] => false
  | a :: as, b :: bs => a == b && hasPref as bs

/-- `containsSub n h` : `n` occurs contiguously in `h`; models JS
`h.includes(n)`. -/
def containsSub (needle : List Char) : List Char → Bool
  | [] => hasPref needle []
  | c :: t => hasPref needle (c :: t) || containsSub needle t

/-- JS `hay.includes(needle)`. -/
def jsIncludes (hay needle : String) : Bool :=
  containsSub needle.toList hay.toList

/-- `needle` is a contiguous substring of `hay` (semantic version). -/
def IsSubstrOf (needle hay : String) : Prop :=
  ∃ pre post, hay.toList = pre ++ needle.toList ++ post

theorem hasPref_iff (n h : List Char) :
    hasPref n h = true ↔ ∃ t, h = n ++ t := by
  induction n generalizing h with
  | nil => simp [hasPref]
  | cons a as ih =>
    cases h with
    | nil => simp [hasPref]
    | cons b bs =>
      simp only [hasPref, Bool.and_eq_true, beq_iff_eq, ih]
      constructor
      · rintro ⟨rfl, t, rfl⟩
        exact ⟨t, rfl⟩
      · rintro ⟨t, ht⟩
        cases ht
        exact ⟨rfl, t, rfl⟩

theorem containsSub_iff (n h : List Char) :
    containsSub n h = true ↔ ∃ pre post, h = pre ++ n ++ post := by
  induction h with
  | nil =>
    simp only [containsSub, hasPref_iff]
    constructor
    · rintro ⟨t, ht⟩
      exact ⟨[], t, ht⟩
    · rintro ⟨pre, post, hp⟩
      rcases List.append_eq_nil.mp (List.append_eq_nil.mp hp.symm).1 with ⟨h1, h2⟩
      exact ⟨post, by simp [← h2, (List.append_eq_nil.mp hp.symm).2]⟩
  | cons c t ih =>
    simp only [containsSub, Bool.or_eq_true, hasPref_iff, ih]
    constructor
    · rintro (⟨s, hs⟩ | ⟨pre, post, hp⟩)
      · exact ⟨[], s, by simpa using hs⟩
      · exact ⟨c :: pre, post, by simp [hp]⟩
    · rintro ⟨pre, post, hp⟩
      cases pre with
      | nil => exact Or.inl ⟨post, by simpa using hp⟩
      | cons c' pre' =>
        rcases List.cons_eq_cons.mp hp with ⟨rfl, ht⟩
        exact Or.inr ⟨pre', post, ht⟩

theorem jsIncludes_iff (hay needle : String) :
    jsIncludes hay needle = true ↔ IsSubstrOf needle hay :=
  containsSub_iff needle.toList hay.toList

/-! Filter predicates of `applyFilters` (tools page script). -/

/-- The search constraint inside `applyFilters`: the raw input is lowercased;
an empty term matches everything, otherwise it must occur in the lowercased
name (`metadata.name || ''`) or the lowercased description
(`metadata.description || ''`). -/
def matchesSearch (searchTerm : String) (r : Repo) : Bool :=
  let term := searchTerm.jsLower
  let name := (strOr r.name "").jsLower
  let desc := (strOr r.description "").jsLower
  term == "" || jsIncludes name term || jsIncludes desc term

/-- The category constraint: empty filter matches everything, otherwise exact
equality with `classification.category || 'Uncategorized'`. -/
def matchesCategory (categoryFilter : String) (r : Repo) : Bool :=
  categoryFilter == "" || strOr r.category "Uncategorized" == categoryFilter

/-- The language constraint: empty filter matches everything, otherwise exact
equality with `metadata.language || ''`. -/
def matchesLanguage (languageFilter : String) (r : Repo) : Bool :=
  languageFilter == "" || strOr r.language "" == languageFilter

/-- An ephemeral filter specification: the three UI inputs. -/
structure FilterSpec where
  search : String
  category : String
  language : String
deriving DecidableEq

/-- The composite predicate of `applyFilters`: AND of the three constraints. -/
def repoPred (f : FilterSpec) (r : Repo) : Bool :=
  matchesSearch f.search r && matchesCategory f.category r &&
    matchesLanguage f.language r

/-- `allRepos.filter(repo => ...)` in `applyFilters`. -/
def applyFilters (repos : List Repo) (f : FilterSpec) : List Repo :=
  repos.filter (repoPred f)

/-! Comparator of `sortRepos` and the stable sort. The JS comparator computes
the field's key for both records and returns `-1/0/1` with the sign flipped
for descending order; `Array.prototype.sort` is stable, so it is modelled by
`List.insertionSort` with the relation `cmp a b ≤ 0`. -/

/-- The shared comparison shape of `sortRepos`:
`if (aVal < bVal) return dir === 'asc' ? -1 : 1; if (aVal > bVal) ...; return 0`. -/
def cmpKey {α : Type} [LinearOrder α] (dir : String) (aVal bVal : α) : Int :=
  if aVal < bVal then (if dir = "asc" then -1 else 1)
  else if bVal < aVal then (if dir = "asc" then 1 else -1)
  else 0

/-- Sort key for `case 'name'`: `(metadata?.name || '').jsLowerCase()`. -/
def nameKey (r : Repo) : String := (strOr r.name "").jsLower

/-- Sort key for `case 'stars'`: `metadata?.stars || 0`. -/
def starsKey (r : Repo) : Nat := r.stars.getD 0

/-- Sort key for `case 'updated'`: `metadata?.last_updated || ''`. -/
def updatedKey (r : Repo) : String := strOr r.last_updated ""

/-- The full `sortRepos` comparator: switch on the sort field; any
unrecognized field hits `default: return 0`. -/
def sortComparator (field dir : String) (a b : Repo) : Int :=
  if field = "name" then cmpKey dir (nameKey a) (nameKey b)
  else if field = "stars" then cmpKey dir (starsKey a) (starsKey b)
  else if field = "updated" then cmpKey dir (updatedKey a) (updatedKey b)
  else 0

/-- The sort relation induced by the comparator (`cmp a b ≤ 0`). -/
def sortLe (field dir : String) (a b : Repo) : Prop :=
  sortComparator field dir a b ≤ 0

instance (field dir : String) : DecidableRel (sortLe field dir) :=
  fun a b => inferInstanceAs (Decidable (sortComparator field dir a b ≤ 0))

/-- `filteredRepos.sort(comparator)` (stable). -/
def sortRepos (field dir : String) (l : List Repo) : List Repo :=
  l.insertionSort (sortLe field dir)

/-- The active sort directive: field selector and direction. -/
structure SortSpec where
  field : String
  dir : String
deriving DecidableEq

/-- The query engine: filter the collection with the composite predicate,
then stable-sort the surviving subset (the body of `applyFilters` followed by
`sortRepos`). -/
def query (repos : List Repo) (f : FilterSpec) (s : SortSpec) : List Repo :=
  sortRepos s.field s.dir (applyFilters repos f)

theorem cmpKey_self_eq_zero {α : Type} [LinearOrder α] (dir : String)
    {x y : α} (h : x = y) : cmpKey dir x y = 0 := by
  subst h; simp [cmpKey]

theorem cmpKey_flip {α : Type} [LinearOrder α] (dir : String) (x y : α) :
    cmpKey dir y x = -cmpKey dir x y := by
  unfold cmpKey
  rcases lt_trichotomy x y with h | h | h
  · rw [if_neg (lt_asymm h), if_pos h, if_pos h]
    split_ifs <;> decide
  · subst h
    rw [if_neg (lt_irrefl x), if_neg (lt_irrefl x)]
    simp
  · rw [if_pos h, if_neg (lt_asymm h), if_pos h]
    split_ifs <;> decide

theorem cmpKey_le_zero_iff {α : Type} [LinearOrder α] (dir : String)
    (x y : α) : cmpKey dir x y ≤ 0 ↔ (if dir = "asc" then x ≤ y else y ≤ x) := by
  unfold cmpKey
  rcases lt_trichotomy x y with h | h | h
  · rw [if_pos h]
    have h1 : x ≤ y := h.le
    have h2 : ¬ y ≤ x := not_le.mpr h
    split_ifs <;> simp [h1, h2]
  · subst h
    rw [if_neg (lt_irrefl x), if_neg (lt_irrefl x)]
    split_ifs <;> simp
  · rw [if_neg (lt_asymm h), if_pos h]
    have h1 : y ≤ x := h.le
    have h2 : ¬ x ≤ y := not_le.mpr h
    split_ifs <;> simp [h1, h2]

theorem sortComparator_flip (field dir : String) (a b : Repo) :
    sortComparator field dir b a = -sortComparator field dir a b := by
  unfold sortComparator
  split_ifs <;> first | rw [cmpKey_flip] | simp

instance (field dir : String) : IsTotal Repo (sortLe field dir) := by
  constructor
  intro a b
  unfold sortLe
  rw [sortComparator_flip field dir a b]
  omega

theorem cmpKey_trans {α : Type} [LinearOrder α] (dir : String) {x y z : α}
    (h1 : cmpKey dir x y ≤ 0) (h2 : cmpKey dir y z ≤ 0) :
    cmpKey dir x z ≤ 0 := by
  rw [cmpKey_le_zero_iff] at h1 h2 ⊢
  by_cases hd : dir = "asc"
  · rw [if_pos hd] at h1 h2 ⊢
    exact le_trans h1 h2
  · rw [if_neg hd] at h1 h2 ⊢
    exact le_trans h2 h1

instance (field dir : String) : IsTrans Repo (sortLe field dir) := by
  constructor
  intro a b c hab hbc
  unfold sortLe sortComparator at hab hbc ⊢
  split_ifs at hab hbc ⊢
  · exact cmpKey_trans dir hab hbc
  · exact cmpKey_trans dir hab hbc
  · exact cmpKey_trans dir hab hbc
  · omega

theorem matchesSearch_iff (term : String) (r : Repo) :
    matchesSearch term r = true ↔
      term.jsLower = "" ∨
        IsSubstrOf term.jsLower ((strOr r.name "").jsLower) ∨
        IsSubstrOf term.jsLower ((strOr r.description "").jsLower) := by
  simp [matchesSearch, jsIncludes_iff, or_assoc]

theorem matchesCategory_iff (c : String) (r : Repo) :
    matchesCategory c r = true ↔
      c = "" ∨ strOr r.category "Uncategorized" = c := by
  simp [matchesCategory]

theorem matchesLanguage_iff (l : String) (r : Repo) :
    matchesLanguage l r = true ↔ l = "" ∨ strOr r.language "" = l := by
  simp [matchesLanguage]

theorem repoPred_iff (f : FilterSpec) (r : Repo) :
    repoPred f r = true ↔
      matchesSearch f.search r = true ∧ matchesCategory f.category r = true ∧
        matchesLanguage f.language r = true := by
  simp [repoPred, and_assoc]

/-- C1: a record appears in `query(C,F,S)` iff it belongs to `C` and
satisfies the AND of the three filter predicates — the case-insensitive
substring search, the category equality, and the language equality — where an
empty search term, category filter, or language filter each vacuously matches
every record. -/
theorem query_membership_iff_filters (C : List Repo) (F : FilterSpec)
    (S : SortSpec) (R : Repo) :
    R ∈ query C F S ↔
      R ∈ C ∧
        (F.search.jsLower = "" ∨
          IsSubstrOf F.search.jsLower ((strOr R.name "").jsLower) ∨
          IsSubstrOf F.search.jsLower ((strOr R.description "").jsLower)) ∧
        (F.category = "" ∨ strOr R.category "Uncategorized" = F.category) ∧
        (F.language = "" ∨ strOr R.language "" = F.language) := by
  unfold query sortRepos applyFilters
  rw [List.mem_insertionSort, List.mem_filter, repoPred_iff,
    matchesSearch_iff, matchesCategory_iff, matchesLanguage_iff]

/-! Demo records: the spec's worked example collection
A: stars 500 Infrastructure, B: stars 1500 Core Methods,
C: stars 1500 Infrastructure, in input order [A, B, C]. -/

/-- Demo record A (stars 500, Infrastructure). -/
def demoA : Repo :=
  { repo_id := "a", name := some "A", stars := some 500,
    category := some "Infrastructure" }

/-- Demo record B (stars 1500, Core Methods). -/
def demoB : Repo :=
  { repo_id := "b", name := some "B", stars := some 1500,
    category := some "Core Methods" }

/-- Demo record C (stars 1500, Infrastructure). -/
def demoC : Repo :=
  { repo_id := "c", name := some "C", stars := some 1500,
    category := some "Infrastructure" }

/-- The demo collection in input order. -/
def demoRepos : List Repo := [demoA, demoB, demoC]

/-- C5: the query engine's sort is stable — two records with equal sort keys
(per the active field) that pass the filters keep, in the query result, the
relative order they had in the input collection. Determinism across repeated
invocations is immediate because `query` is a function of its arguments. -/
theorem query_sort_stable (C : List Repo) (F : FilterSpec) (S : SortSpec)
    (a b : Repo) (hab : [a, b].Sublist C)
    (ha : repoPred F a = true) (hb : repoPred F b = true)
    (hkey : (S.field = "name" ∧ nameKey a = nameKey b) ∨
            (S.field = "stars" ∧ starsKey a = starsKey b) ∨
            (S.field = "updated" ∧ updatedKey a = updatedKey b)) :
    [a, b].Sublist (query C F S) := by
  have hfil : [a, b].Sublist (applyFilters C F) := by
    have h2 : [a, b].filter (repoPred F) = [a, b] := by
      simp [List.filter, ha, hb]
    have h3 := hab.filter (repoPred F)
    rw [h2] at h3
    exact h3
  have hcmp : sortComparator S.field S.dir a b = 0 := by
    rcases hkey with ⟨hf, he⟩ | ⟨hf, he⟩ | ⟨hf, he⟩ <;>
      simp [sortComparator, hf, cmpKey_self_eq_zero _ he]
  exact List.pair_sublist_insertionSort (le_of_eq hcmp) hfil

/-- C5 witness: in the demo collection, B and C have equal star counts; with
the stars sort active they keep their input order in the query result. -/
theorem query_sort_stable_witness :
    [demoB, demoC].Sublist
      (query demoRepos ⟨"", "", ""⟩ ⟨"stars", "desc"⟩) := by
  have h := query_sort_stable demoRepos ⟨"", "", ""⟩ ⟨"stars", "desc"⟩
    demoB demoC (by decide) (by decide) (by decide)
    (Or.inr (Or.inl ⟨rfl, by decide⟩))
  exact h

/-- C6: with an unrecognized sort field the comparator returns 0 for every
pair, and sorting is a no-op: the list keeps its input order. -/
theorem unrecognized_sort_field_noop (field dir : String) (l : List Repo)
    (h1 : field ≠ "name") (h2 : field ≠ "stars") (h3 : field ≠ "updated") :
    (∀ a b : Repo, sortComparator field dir a b = 0) ∧
      sortRepos field dir l = l := by
  have hc : ∀ a b : Repo, sortComparator field dir a b = 0 := by
    intro a b
    simp [sortComparator, h1, h2, h3]
  refine ⟨hc, ?_⟩
  have hs : List.Sorted (sortLe field dir) l := by
    induction l with
    | nil => exact List.sorted_nil
    | cons a t ih =>
      exact List.sorted_cons.mpr ⟨fun b _ => le_of_eq (hc a b), ih⟩
  exact List.Sorted.insertionSort_eq hs

/-- C6 witness: the field `"zzz"` is unrecognized; sorting the demo
collection by it changes nothing. -/
theorem unrecognized_sort_field_noop_witness :
    (∀ a b : Repo, sortComparator "zzz" "desc" a b = 0) ∧
      sortRepos "zzz" "desc" demoRepos = demoRepos :=
  unrecognized_sort_field_noop "zzz" "desc" demoRepos
    (by decide) (by decide) (by decide)

/-! Sort-state transition of the `.sort-btn` click handler in
`setupEventListeners`. -/

/-- The click handler's update of `currentSort`: same field flips the
direction, a different field becomes active with direction `'desc'`. -/
def clickSort (s : SortSpec) (f : String) : SortSpec :=
  if s.field = f then
    { s with dir := if s.dir = "asc" then "desc" else "asc" }
  else
    { field := f, dir := "desc" }

/-- C7: clicking the currently active sort field flips the direction between
ascending and descending while keeping the field; clicking any other field
makes it active with direction descending. -/
theorem clickSort_spec (s : SortSpec) (f : String) :
    (s.field = f →
       (clickSort s f).field = s.field ∧
       (s.dir = "asc" → (clickSort s f).dir = "desc") ∧
       (s.dir = "desc" → (clickSort s f).dir = "asc")) ∧
    (s.field ≠ f → clickSort s f = { field := f, dir := "desc" }) := by
  constructor
  · intro h
    unfold clickSort
    rw [if_pos h]
    refine ⟨rfl, fun hd => ?_, fun hd => ?_⟩
    · rw [hd, if_pos rfl]
    · rw [hd, if_neg (by decide)]
  · intro h
    unfold clickSort
    rw [if_neg h]

/-- C7 witness: from state (stars, desc), clicking stars flips to ascending;
clicking name switches to (name, desc). -/
theorem clickSort_spec_witness :
    (clickSort ⟨"stars", "desc"⟩ "stars").dir = "asc" ∧
    clickSort ⟨"stars", "desc"⟩ "name" = ⟨"name", "desc"⟩ :=
  ⟨((clickSort_spec ⟨"stars", "desc"⟩ "stars").1 rfl).2.2 rfl,
   (clickSort_spec ⟨"stars", "desc"⟩ "name").2 (by decide)⟩

/-! Trending aggregation of `renderTrendingRepos` (dashboard script). -/

/-- The filter of `renderTrendingRepos`:
`r.tracking?.trending || r.tracking?.star_velocity_7d > 10`
(an absent velocity gives `undefined > 10`, which is false). -/
def trendingPred (r : Repo) : Bool :=
  boolOr r.trending ||
    (match r.star_velocity_7d with
     | some v => decide (10 < v)
     | none => false)

/-- `tracking?.star_velocity_7d || 0`, the trending sort key. -/
def velKey (r : Repo) : Int := r.star_velocity_7d.getD 0

/-- The trending sort relation: comparator `(b.vel||0) - (a.vel||0) ≤ 0`,
i.e. descending by velocity. -/
def trendingLe (a b : Repo) : Prop := velKey b - velKey a ≤ 0

instance : DecidableRel trendingLe :=
  fun a b => inferInstanceAs (Decidable (velKey b - velKey a ≤ 0))

instance : IsTotal Repo trendingLe :=
  ⟨fun a b => by unfold trendingLe; omega⟩

instance : IsTrans Repo trendingLe :=
  ⟨fun a b c h1 h2 => by unfold trendingLe at h1 h2 ⊢; omega⟩

/-- The `renderTrendingRepos` pipeline: filter, stable sort descending by
velocity, truncate (the site calls `slice(0, 5)`). -/
def trendingSet (repos : List Repo) (limit : Nat) : List Repo :=
  ((repos.filter trendingPred).insertionSort trendingLe).take limit

/-- The dashboard's actual trending table content: the code hardcodes
`slice(0, 5)`, i.e. the spec's default limit of 5. -/
def trendingTop (repos : List Repo) : List Repo := trendingSet repos 5

/-- C3: `trendingSet` selects exactly the records whose `trending` flag is
truthy or whose velocity is strictly above 10 (velocity exactly 10 with
trending absent/false is excluded; trending true with velocity 0 and
trending absent with velocity 11 are included), sorts them descending by
velocity (0 when absent), and truncates to the limit, which defaults to 5. -/
theorem trendingSet_spec (repos : List Repo) (limit : Nat) :
    (∀ r, r ∈ trendingSet repos limit → r ∈ repos ∧ trendingPred r = true) ∧
    (∀ r, r ∈ repos → trendingPred r = true →
       r ∈ (repos.filter trendingPred).insertionSort trendingLe) ∧
    List.Sorted (fun a b => velKey b ≤ velKey a) (trendingSet repos limit) ∧
    trendingSet repos limit
      = ((repos.filter trendingPred).insertionSort trendingLe).take limit ∧
    trendingTop repos = trendingSet repos 5 ∧
    (∀ r, trendingPred r = true ↔
       r.trending = some true ∨
         (∃ v, r.star_velocity_7d = some v ∧ 10 < v)) := by
  refine ⟨?_, ?_, ?_, rfl, rfl, ?_⟩
  · intro r hr
    have h1 : r ∈ (repos.filter trendingPred).insertionSort trendingLe :=
      List.mem_of_mem_take hr
    have h2 := List.mem_filter.mp ((List.mem_insertionSort trendingLe).mp h1)
    exact ⟨h2.1, h2.2⟩
  · intro r hr hp
    exact (List.mem_insertionSort trendingLe).mpr
      (List.mem_filter.mpr ⟨hr, hp⟩)
  · have hs : List.Sorted trendingLe
        ((repos.filter trendingPred).insertionSort trendingLe) :=
      List.sorted_insertionSort trendingLe _
    have ht := hs.sublist (List.take_sublist limit _)
    exact ht.imp (fun h => by unfold trendingLe at h; omega)
  · intro r
    unfold trendingPred boolOr
    cases ht : r.trending with
    | none => cases hv : r.star_velocity_7d <;> simp [hv]
    | some b => cases b <;> cases hv : r.star_velocity_7d <;> simp [hv]

/-- Trending demo: flagged trending with velocity 0. -/
def trendT : Repo := { repo_id := "t", trending := some true,
                       star_velocity_7d := some 0 }

/-- Trending demo: no flag, velocity 11. -/
def trendV : Repo := { repo_id := "v", star_velocity_7d := some 11 }

/-- Trending demo: no flag, velocity exactly 10. -/
def trendX : Repo := { repo_id := "x", star_velocity_7d := some 10 }

/-- C3 witness: velocity 11 puts a record in the selected set; trending true
with velocity 0 satisfies the predicate; velocity exactly 10 without the flag
does not. -/
theorem trendingSet_spec_witness :
    trendV ∈ ([trendX, trendT, trendV].filter trendingPred).insertionSort
      trendingLe ∧
    trendingPred trendT = true ∧ trendingPred trendX = false := by
  refine ⟨(trendingSet_spec [trendX, trendT, trendV] 5).2.1 trendV
    (by decide) (by decide), ?_, by decide⟩
  exact ((trendingSet_spec [trendX, trendT, trendV] 5).2.2.2.2.2
    trendT).mpr (Or.inl rfl)

/-! Top-by-stars aggregation of `renderTopRepos` (dashboard script). -/

/-- The `renderTopRepos` sort relation: comparator
`(b.stars||0) - (a.stars||0) ≤ 0`, i.e. descending by star count. -/
def starsLe (a b : Repo) : Prop := (starsKey b : Int) - starsKey a ≤ 0

instance : DecidableRel starsLe :=
  fun a b => inferInstanceAs (Decidable ((starsKey b : Int) - starsKey a ≤ 0))

instance : IsTotal Repo starsLe :=
  ⟨fun a b => by unfold starsLe; omega⟩

instance : IsTrans Repo starsLe :=
  ⟨fun a b c h1 h2 => by unfold starsLe at h1 h2 ⊢; omega⟩

/-- `renderTopRepos`: `[...repos].sort(...)` (a copy, stable) then
`slice(0, 10)`; the truncation bound is kept as a parameter whose default is
the site's 10. -/
def topByStars (repos : List Repo) (limit : Nat) : List Repo :=
  (repos.insertionSort starsLe).take limit

/-- The dashboard's actual top table content: the code hardcodes
`slice(0, 10)`, i.e. the spec's default limit of 10. -/
def topTen (repos : List Repo) : List Repo := topByStars repos 10

/-- C4: `topByStars` returns the collection sorted descending by normalized
star count with ties kept in original collection order, truncated to the
limit (default 10); on the demo collection [A, B, C] with limit 2 it returns
[B, C], B first. -/
theorem topByStars_spec (repos : List Repo) (limit : Nat) :
    List.Sorted (fun a b => starsKey b ≤ starsKey a)
      (topByStars repos limit) ∧
    (∀ a b, [a, b].Sublist repos → starsKey a = starsKey b →
       [a, b].Sublist (repos.insertionSort starsLe)) ∧
    topByStars repos limit = (repos.insertionSort starsLe).take limit ∧
    topTen repos = topByStars repos 10 ∧
    (topByStars repos limit).length = min limit repos.length ∧
    topByStars demoRepos 2 = [demoB, demoC] := by
  refine ⟨?_, ?_, rfl, rfl, ?_, by decide⟩
  · have hs : List.Sorted starsLe (repos.insertionSort starsLe) :=
      List.sorted_insertionSort starsLe repos
    have ht := hs.sublist (List.take_sublist limit _)
    exact ht.imp (fun h => by unfold starsLe at h; omega)
  · intro a b hab he
    exact List.pair_sublist_insertionSort (by unfold starsLe; omega) hab
  · simp [topByStars]

/-- C4 witness: B and C have equal stars; their input order survives the
descending sort of the demo collection. -/
theorem topByStars_spec_witness :
    [demoB, demoC].Sublist (demoRepos.insertionSort starsLe) :=
  (topByStars_spec demoRepos 2).2.1 demoB demoC (by decide) (by decide)

/-! Category histogram of `renderCategoryChart` (dashboard script). A JS
object with string keys is modelled as an insertion-ordered association
list. -/

/-- `classification?.category || 'Uncategorized'`. -/
def categoryOf (r : Repo) : String := strOr r.category "Uncategorized"

/-- One step of
`categoryCounts[category] = (categoryCounts[category] || 0) + 1`:
increment an existing key in place, or append a new key with count 1. -/
def bump (m : List (String × Nat)) (k : String) : List (String × Nat) :=
  match m with
  | [] => [(k, 1)]
  | (ka, v) :: rest =>
      if ka = k then (ka, v + 1) :: rest else (ka, v) :: bump rest k

/-- The `renderCategoryChart` histogram accumulation over the collection. -/
def categoryHistogram (repos : List Repo) : List (String × Nat) :=
  repos.foldl (fun m r => bump m (categoryOf r)) []

/-- Sum of all counts in the histogram (total of `Object.values`). -/
def histTotal (m : List (String × Nat)) : Nat := (m.map Prod.snd).sum

/-- The count stored under key `k` (0 when the key is absent). -/
def histCount (m : List (String × Nat)) (k : String) : Nat :=
  match m with
  | [] => 0
  | (ka, v) :: rest => if ka = k then v else histCount rest k

theorem histTotal_cons (p : String × Nat) (m : List (String × Nat)) :
    histTotal (p :: m) = p.2 + histTotal m := by
  simp [histTotal]

theorem histTotal_bump (m : List (String × Nat)) (k : String) :
    histTotal (bump m k) = histTotal m + 1 := by
  induction m with
  | nil => simp [bump, histTotal]
  | cons a rest ih =>
    obtain ⟨ka, va⟩ := a
    by_cases h : ka = k
    · simp only [bump, if_pos h, histTotal_cons]
      omega
    · simp only [bump, if_neg h, histTotal_cons, ih]
      omega

theorem histCount_bump (m : List (String × Nat)) (kk k : String) :
    histCount (bump m kk) k = histCount m k + (if kk = k then 1 else 0) := by
  induction m with
  | nil => simp [bump, histCount]
  | cons a rest ih =>
    obtain ⟨ka, va⟩ := a
    by_cases h1 : ka = kk
    · subst h1
      simp only [bump, if_pos rfl, histCount]
      by_cases h2 : ka = k
      · simp [h2]
      · simp [h2]
    · simp only [bump, if_neg h1, histCount]
      by_cases h2 : ka = k
      · subst h2
        rw [if_pos rfl, if_pos rfl, if_neg (fun he => h1 he.symm)]
        omega
      · simp [h2, ih]

theorem categoryHistogram_total_aux (repos : List Repo)
    (m : List (String × Nat)) :
    histTotal (repos.foldl (fun acc r => bump acc (categoryOf r)) m)
      = histTotal m + repos.length := by
  induction repos generalizing m with
  | nil => simp
  | cons r rest ih =>
    rw [List.foldl_cons, ih, histTotal_bump]
    simp only [List.length_cons]
    omega

theorem categoryHistogram_count_aux (repos : List Repo)
    (m : List (String × Nat)) (k : String) :
    histCount (repos.foldl (fun acc r => bump acc (categoryOf r)) m) k
      = histCount m k
          + (repos.filter (fun r => categoryOf r == k)).length := by
  induction repos generalizing m with
  | nil => simp
  | cons r rest ih =>
    rw [List.foldl_cons, ih, histCount_bump]
    by_cases h : categoryOf r = k
    · have hb : (categoryOf r == k) = true := by simp [h]
      rw [List.filter_cons, hb, if_pos rfl, List.length_cons, if_pos h]
      omega
    · have hb : (categoryOf r == k) = false := by simp [h]
      rw [List.filter_cons, hb, if_neg h,
        if_neg (show ¬ (false = true) by decide)]
      omega

/-- C8: every record contributes to exactly one histogram bucket, the one of
its normalized category, so each bucket counts the records with that
category and the counts sum to the collection size. -/
theorem categoryHistogram_spec (repos : List Repo) :
    histTotal (categoryHistogram repos) = repos.length ∧
    (∀ k, histCount (categoryHistogram repos) k
        = (repos.filter (fun r => categoryOf r == k)).length) := by
  constructor
  · have h := categoryHistogram_total_aux repos []
    simpa [categoryHistogram, histTotal] using h
  · intro k
    have h := categoryHistogram_count_aux repos [] k
    simpa [categoryHistogram, histCount] using h

/-! Frame property of the tools page state: `applyFilters` rebuilds
`filteredRepos` and only reads `allRepos`. -/

/-- The tools page process-wide state: the full collection, the filtered
view, and the active sort. -/
structure AppState where
  allRepos : List Repo
  filteredRepos : List Repo
  currentSort : SortSpec
deriving DecidableEq

/-- One run of `applyFilters` as a state transformer: `filteredRepos` is
reassigned to a freshly filtered array (`Array.prototype.filter` copies)
which `sortRepos` sorts in place; `allRepos` is only read. -/
def applyFiltersStep (st : AppState) (f : FilterSpec) : AppState :=
  let fr := applyFilters st.allRepos f
  { st with
    filteredRepos := sortRepos st.currentSort.field st.currentSort.dir fr }

/-- C9: running the query (filter then sort) leaves the input collection —
and the sort state — unchanged, while `filteredRepos` receives exactly the
query result. -/
theorem applyFiltersStep_frame (st : AppState) (f : FilterSpec) :
    (applyFiltersStep st f).allRepos = st.allRepos ∧
    (applyFiltersStep st f).currentSort = st.currentSort ∧
    (applyFiltersStep st f).filteredRepos
      = query st.allRepos f st.currentSort :=
  ⟨rfl, rfl, rfl⟩

/-! Language filter options of `populateLanguageFilter` (tools page). -/

/-- One `forEach` step of `populateLanguageFilter`: add `metadata?.language`
to the set when truthy (present and non-empty); the JS `Set` keeps first
insertion order and ignores duplicates, modelled as a duplicate-free list. -/
def langStep (acc : List String) (r : Repo) : List String :=
  match r.language with
  | some s => if s = "" then acc else if s ∈ acc then acc else acc ++ [s]
  | none => acc

/-- The language set accumulated over the collection, in insertion order. -/
def collectLangs (repos : List Repo) : List String :=
  repos.foldl langStep []

/-- `Array.from(languages).sort()`: JS default string sort, ascending. -/
def languageOptions (repos : List Repo) : List String :=
  (collectLangs repos).insertionSort (· ≤ ·)

theorem mem_langStep (acc : List String) (r : Repo) (l : String) :
    l ∈ langStep acc r ↔ l ∈ acc ∨ (r.language = some l ∧ l ≠ "") := by
  unfold langStep
  cases hl : r.language with
  | none => simp
  | some s =>
    by_cases h1 : s = ""
    · subst h1
      simp only [if_pos rfl, Option.some.injEq]
      constructor
      · exact Or.inl
      · rintro (h | ⟨rfl, hne⟩)
        · exact h
        · exact absurd rfl hne
    · by_cases h2 : s ∈ acc
      · simp only [if_neg h1, if_pos h2, Option.some.injEq]
        constructor
        · exact Or.inl
        · rintro (h | ⟨rfl, -⟩)
          · exact h
          · exact h2
      · simp only [if_neg h1, if_neg h2, List.mem_append,
          List.mem_singleton, Option.some.injEq]
        constructor
        · rintro (h | rfl)
          · exact Or.inl h
          · exact Or.inr ⟨rfl, h1⟩
        · rintro (h | ⟨rfl, hne⟩)
          · exact Or.inl h
          · exact Or.inr rfl

theorem mem_collectLangs_aux (repos : List Repo) :
    ∀ (acc : List String) (l : String),
      l ∈ List.foldl langStep acc repos ↔
        l ∈ acc ∨ (l ≠ "" ∧ ∃ r, r ∈ repos ∧ r.language = some l) := by
  induction repos with
  | nil => intro acc l; simp
  | cons r rest ih =>
    intro acc l
    rw [List.foldl_cons, ih, mem_langStep]
    simp only [List.mem_cons]
    constructor
    · rintro ((h | ⟨hr, hne⟩) | ⟨hne, rr, hm, hl⟩)
      · exact Or.inl h
      · exact Or.inr ⟨hne, r, Or.inl rfl, hr⟩
      · exact Or.inr ⟨hne, rr, Or.inr hm, hl⟩
    · rintro (h | ⟨hne, rr, (rfl | hm), hl⟩)
      · exact Or.inl (Or.inl h)
      · exact Or.inl (Or.inr ⟨hl, hne⟩)
      · exact Or.inr ⟨hne, rr, hm, hl⟩

theorem nodup_collectLangs_aux (repos : List Repo) :
    ∀ acc : List String, acc.Nodup → (List.foldl langStep acc repos).Nodup := by
  induction repos with
  | nil => intro acc h; exact h
  | cons r rest ih =>
    intro acc h
    rw [List.foldl_cons]
    apply ih
    unfold langStep
    cases r.language with
    | none => exact h
    | some s =>
      by_cases h1 : s = ""
      · simpa [h1] using h
      · by_cases h2 : s ∈ acc
        · simpa [h1, h2] using h
        · simp only [if_neg h1, if_neg h2]
          simp [List.nodup_append, h, h2]

/-- C10: the language filter's option list consists exactly of the distinct
non-empty languages occurring in the collection, without duplicates, in
strictly ascending lexicographic order; records lacking a language contribute
nothing. -/
theorem languageOptions_spec (repos : List Repo) :
    (languageOptions repos).Nodup ∧
    List.Sorted (· < ·) (languageOptions repos) ∧
    (∀ l, l ∈ languageOptions repos ↔
       l ≠ "" ∧ ∃ r, r ∈ repos ∧ r.language = some l) := by
  have hnd : (collectLangs repos).Nodup :=
    nodup_collectLangs_aux repos [] List.nodup_nil
  have hnd2 : (languageOptions repos).Nodup :=
    ((List.perm_insertionSort _ _).nodup_iff).mpr hnd
  refine ⟨hnd2, ?_, ?_⟩
  · have hs : List.Sorted (· ≤ ·) (languageOptions repos) :=
      List.sorted_insertionSort _ _
    exact hs.lt_of_le hnd2
  · intro l
    rw [languageOptions, List.mem_insertionSort]
    have h := mem_collectLangs_aux repos [] l
    simpa [collectLangs] using h

/-! The C2 claim about id / "No description" fallbacks inside the search. -/

/-- A record with no metadata whose id contains "fold". -/
def ghostRepo : Repo := { repo_id := "FoldGhost" }

/-- C2 counterexample: inside the search predicate the name falls back to the
empty string, not to the record id (and the description to the empty string,
not to "No description"): `ghostRepo` has an absent name, its id contains the
term "fold", yet the search predicate rejects it and the query drops it —
contradicting the claim's conclusion that it must match. -/
theorem search_no_id_fallback :
    ghostRepo.name = none ∧
    jsIncludes ghostRepo.repo_id.jsLower "fold" = true ∧
    matchesSearch "fold" ghostRepo = false ∧
    applyFilters [ghostRepo] ⟨"fold", "", ""⟩ = [] ∧
    jsIncludes "No description".jsLower "description" = true ∧
    matchesSearch "description" ghostRepo = false :=
  ⟨rfl, by decide, by decide, by decide, by decide, by decide⟩

/-- C2 amended: the search predicate tests whether the lowercased term is a
substring of the lowercased name OR the lowercased description, where an
absent `metadata.name` falls back to the empty string (not to the record id)
and an absent `metadata.description` falls back to the empty string (not to
the literal "No description"); a record with absent name whose id contains
the term does not thereby satisfy the predicate. -/
theorem matchesSearch_amended (term : String) (r : Repo) :
    matchesSearch term r = true ↔
      term.jsLower = "" ∨
        IsSubstrOf term.jsLower ((strOr r.name "").jsLower) ∨
        IsSubstrOf term.jsLower ((strOr r.description "").jsLower) :=
  matchesSearch_iff term r

end Foldscape
